import Mathlib

/-!
Verification of the BTCD.P position ledger, candle builder, index aggregator
and keeper daemon against their natural-language specification.

The definitions below are a shallow embedding of the TypeScript / Solidity
sources:

* `aggregate` embeds `aggregate` from `src/api/candles.ts` (tick → OHLC
  bucketing); `normalizeContinuity` embeds `normalizeContinuity` from the
  frontend chart module.  JavaScript number values are modelled as exact
  rationals `ℚ`; the float literal `1e-9` is modelled as the rational
  `1/10^9` (`eps`).  All counterexample inputs below use values for which
  IEEE-754 double arithmetic is exact, so the `ℚ` model and the JS code
  agree on them.
* `calcPnl`, `openPosition`, `closePosition`, `canLiquidate`, `liquidate`
  embed the `BTCDPerps` Solidity contract (solc ^0.8, so every `+ - *` on
  `uint256`/`int256` is checked and reverts on wrap; a revert is modelled
  as `none`).  The explicit `uint256 → int256` cast does not revert and is
  modelled by `toInt256`.
* `footballStep` embeds the per-fixture football delta step of
  `localaway-daemon.ts` (the per-source cursor / idempotency logic).
* `actLoop` / `keeperIteration` embed the action loop of
  `keepers-daemon.ts` (cap on mutating transactions per iteration).
-/

namespace BTCD

/-! ## Candle builder (`src/api/candles.ts` and the chart module) -/

/-- OHLC candle, as in `type Candle = { time; open; high; low; close }`. -/
structure Candle where
  time : Nat
  «open» : ℚ
  high : ℚ
  low : ℚ
  close : ℚ
deriving DecidableEq, Repr

/-- A tick `(time, value)` as consumed by `aggregate`. -/
structure Point where
  time : Nat
  value : ℚ
deriving DecidableEq, Repr

/-- One `buckets.set` / in-place update step of `aggregate`: the JS `Map`
is modelled as an association list in insertion order. -/
def updateBucket : List (Nat × Candle) → Nat → ℚ → List (Nat × Candle)
  | [], b, v => [(b, ⟨b, v, v, v, v⟩)]
  | (k, c) :: rest, b, v =>
    if k = b then
      (k, { c with high := max c.high v, low := min c.low v, close := v }) :: rest
    else
      (k, c) :: updateBucket rest b v

/-- Ascending insertion by bucket key (keys in the map are unique, so this
is exactly the JS `sort((a,b)=>a[0]-b[0])` on the entries). -/
def insertByKey (x : Nat × Candle) : List (Nat × Candle) → List (Nat × Candle)
  | [] => [x]
  | y :: rest => if x.1 ≤ y.1 then x :: y :: rest else y :: insertByKey x rest

def sortByKey (l : List (Nat × Candle)) : List (Nat × Candle) :=
  l.foldr insertByKey []

/-- `aggregate(points, bucketSec)` from `src/api/candles.ts`: bucket key is
`floor(time / bucketSec) * bucketSec`; first tick of a bucket sets
`open=high=low=close`, later ticks update `high`/`low`/`close`. -/
def aggregate (points : List Point) (bucketSec : Nat) : List Candle :=
  if points = [] then []
  else
    (sortByKey
      (points.foldl
        (fun m p => updateBucket m (p.time / bucketSec * bucketSec) p.value) [])).map
      Prod.snd

/-- The continuity tolerance `1e-9` of `normalizeContinuity`. -/
def eps : ℚ := 1 / 1000000000

/-- One step of `normalizeContinuity`: force `open := prev.close` when it
differs from the previous close by more than `eps`, widening `high`/`low`
to include the forced open. -/
def normStep (prevClose : ℚ) (c : Candle) : Candle :=
  if eps < |c.«open» - prevClose| then
    { c with «open» := prevClose, high := max c.high prevClose,
             low := min c.low prevClose }
  else c

/-- The loop of `normalizeContinuity` from the second candle on; the
threaded value is the previous *output* candle's close (which `normStep`
never changes). -/
def normFrom (prevClose : ℚ) : List Candle → List Candle
  | [] => []
  | c :: rest =>
    normStep prevClose c :: normFrom (normStep prevClose c).close rest

/-- `normalizeContinuity(cs)`: first candle copied unchanged, every later
candle passed through `normStep` against the previous output close. -/
def normalizeContinuity : List Candle → List Candle
  | [] => []
  | c :: rest => c :: normFrom c.close rest

/-! ## The `BTCDPerps` Solidity contract -/

/-- `2^256`, the modulus of `uint256`. -/
def U256 : Nat := 2 ^ 256

/-- `2^255`, the magnitude bound of `int256`. -/
def I256 : Nat := 2 ^ 255

/-- Checked `uint256` multiplication: solc ^0.8 reverts on overflow. -/
def cmul (a b : Nat) : Option Nat :=
  if a * b < U256 then some (a * b) else none

/-- Checked `uint256` subtraction: solc ^0.8 reverts on underflow. -/
def csub (a b : Nat) : Option Nat :=
  if b ≤ a then some (a - b) else none

/-- The explicit Solidity cast `int256(x)` of a `uint256`: wraps, never
reverts. -/
def toInt256 (x : Nat) : Int :=
  if x < I256 then (x : Int) else (x : Int) - (U256 : Int)

/-- Checked `int256` arithmetic result: solc ^0.8 reverts when the exact
value leaves the `int256` range. -/
def ichk (z : Int) : Option Int :=
  if -(I256 : Int) ≤ z ∧ z < (I256 : Int) then some z else none

/-- `struct Position` of `BTCDPerps`. -/
structure Position where
  isOpen : Bool
  isLong : Bool
  leverage : Nat
  margin : Nat
  entryPrice : Nat
  lastUpdate : Nat
deriving DecidableEq, Repr

/-- The default (never-opened) mapping value. -/
def emptyPosition : Position := ⟨false, false, 0, 0, 0, 0⟩

/-- Contract storage: the `positions` mapping (accounts modelled as `Nat`),
the contract's ETH balance, and the three risk parameters. -/
structure PerpsState where
  positions : Nat → Position
  balance : Nat
  maintenanceMarginRatioBps : Nat
  liquidationFeeBps : Nat
  takerFeeBps : Nat

def MAX_LEVERAGE : Nat := 150

/-- `_calcPnl(pos, price)`.  Note the source computes
`notional * (price - entry)` with `uint256` arithmetic and only casts the
truncated quotient to `int256` at the end, so the subtraction is *checked
unsigned* subtraction. -/
def calcPnl (pos : Position) (price : Nat) : Option (Int × Nat) :=
  match cmul pos.margin pos.leverage with
  | none => none
  | some notional =>
    if pos.entryPrice = 0 then some (0, notional)
    else if pos.isLong then
      match csub price pos.entryPrice with
      | none => none
      | some d =>
        match cmul notional d with
        | none => none
        | some nd => some (toInt256 (nd / pos.entryPrice), notional)
    else
      match csub pos.entryPrice price with
      | none => none
      | some d =>
        match cmul notional d with
        | none => none
        | some nd => some (toInt256 (nd / pos.entryPrice), notional)

/-- `openPosition(isLong, leverage)` with `msg.value = v`, oracle price
`price`, `block.timestamp = now`.  `none` models a revert (no state
change).  At the body's start `address(this).balance` already includes
`msg.value`, hence the `st.balance + v` in the fee liquidity check. -/
def openPosition (st : PerpsState) (sender : Nat) (isLong : Bool)
    (leverage v price now : Nat) : Option PerpsState :=
  if ¬ (1 ≤ leverage ∧ leverage ≤ MAX_LEVERAGE) then none
  else if v = 0 then none
  else if (st.positions sender).isOpen then none
  else
    match cmul v leverage with
    | none => none
    | some notional =>
      match cmul notional st.takerFeeBps with
      | none => none
      | some nf =>
        if st.balance + v < nf / 10000 then none
        else
          match csub v (nf / 10000) with
          | none => none
          | some m =>
            some { st with
              balance := st.balance + v,
              positions := fun a =>
                if a = sender then ⟨true, isLong, leverage, m, price, now⟩
                else st.positions a }

/-- `closePosition()` by `sender` at oracle price `price`.  Returns the
post state and the payout transferred to the caller; `none` models a
revert (including the `payout fail` case when the contract cannot pay). -/
def closePosition (st : PerpsState) (sender price now : Nat) :
    Option (PerpsState × Nat) :=
  let pos := st.positions sender
  if ¬ pos.isOpen then none
  else
    match calcPnl pos price with
    | none => none
    | some (pnl, notional) =>
      match cmul notional st.takerFeeBps with
      | none => none
      | some nf =>
        match ichk (toInt256 pos.margin + pnl) with
        | none => none
        | some s1 =>
          match ichk (s1 - toInt256 (nf / 10000)) with
          | none => none
          | some settle =>
            let payout := if settle ≤ 0 then 0 else settle.toNat
            if st.balance < payout then none
            else
              some ({ st with
                balance := st.balance - payout,
                positions := fun a =>
                  if a = sender then { pos with isOpen := false, lastUpdate := now }
                  else st.positions a }, payout)

/-- `canLiquidate(trader)` at oracle price `price`.  A view call; `none`
models a revert inside the call. -/
def canLiquidate (st : PerpsState) (trader price : Nat) : Option Bool :=
  let pos := st.positions trader
  if ¬ pos.isOpen then some false
  else
    match calcPnl pos price with
    | none => none
    | some (pnl, notional) =>
      match ichk (toInt256 pos.margin + pnl) with
      | none => none
      | some equity =>
        match cmul notional st.maintenanceMarginRatioBps with
        | none => none
        | some nm =>
          some (decide (equity ≤ toInt256 (nm / 10000)))

/-- `liquidate(trader)` at oracle price `price`.  Returns the post state
and the reward paid to the calling keeper (the liquidated trader receives
nothing). -/
def liquidate (st : PerpsState) (trader price : Nat) :
    Option (PerpsState × Nat) :=
  let pos := st.positions trader
  if ¬ pos.isOpen then none
  else
    match canLiquidate st trader price with
    | none => none
    | some false => none
    | some true =>
      match calcPnl pos price with
      | none => none
      | some (pnl, notional) =>
        match ichk (toInt256 pos.margin + pnl) with
        | none => none
        | some equity =>
          match cmul notional st.liquidationFeeBps with
          | none => none
          | some nl =>
            let reward :=
              if equity ≤ 0 then 0
              else if nl / 10000 < equity.toNat then nl / 10000
              else equity.toNat
            if 0 < reward ∧ st.balance < reward then none
            else
              some ({ st with
                balance := st.balance - reward,
                positions := fun a =>
                  if a = trader then { pos with isOpen := false }
                  else st.positions a }, reward)

/-! ## Football delta step of `localaway-daemon.ts` -/

/-- A fixture score cursor `{ home, away }` (the stored team/league names
play no role in the delta logic). -/
structure Score where
  home : Nat
  away : Nat
deriving DecidableEq, Repr

/-- One iteration of the football loop body for a single fixture: `last`
is the per-fixture cursor (`lastFootball.get(id)`, absent on first
sight), `cur` the fetched score, `idx` the current index.  Returns the
new index, the new cursor, and whether a price was pushed.  The deltas
are `Math.max(0, cur - prev)`, i.e. truncated subtraction. -/
def footballStep (last : Option Score) (cur : Score) (idx : ℚ) :
    ℚ × Option Score × Bool :=
  let prev := last.getD cur
  let dHome := cur.home - prev.home
  let dAway := cur.away - prev.away
  if dHome = 0 ∧ dAway = 0 then (idx, last, false)
  else
    let netPct : ℚ := (dHome : ℚ) * (1 / 1000) - (dAway : ℚ) * (1 / 1000)
    (max 1 (idx * (1 + netPct)), some cur, true)

/-! ## Keeper action loop of `keepers-daemon.ts` -/

/-- A mutating ledger operation issued by the keeper. -/
inductive KAction where
  | liq (trader : Nat)
  | closeTriggered (trader : Nat)
deriving DecidableEq, Repr

/-- The `for (const trader of traders)` action loop with the
`if (sent >= MAX_TX_PER_LOOP) break` cap; `canLiq`/`shouldCl` abstract the
two eligibility queries (a query failure caught by the `try/catch` behaves
like `false`: the trader is skipped, not removed). -/
def actLoop (canLiq shouldCl : Nat → Bool) (cap : Nat) :
    List Nat → Nat → List KAction
  | [], _ => []
  | t :: rest, sent =>
    if cap ≤ sent then []
    else if canLiq t then KAction.liq t :: actLoop canLiq shouldCl cap rest (sent + 1)
    else if shouldCl t then
      KAction.closeTriggered t :: actLoop canLiq shouldCl cap rest (sent + 1)
    else actLoop canLiq shouldCl cap rest sent

/-- One iteration of the keeper main loop, after the (cadence-gated) log
scan: it iterates over a copy of the tracked open-set and never mutates
the set itself, so the iteration returns the set unchanged together with
the issued actions. -/
def keeperIteration (openSet : List Nat) (cap : Nat)
    (canLiq shouldCl : Nat → Bool) : List Nat × List KAction :=
  (openSet, actLoop canLiq shouldCl cap openSet 0)

end BTCD

namespace BTCD

/-! ## Concrete states used by the claim theorems -/

/-- State for C1/C2: one deeply underwater long (entry 200, current price
100, so the documented signed PnL would be `10000 * (100-200)/200 = -5000`). -/
def c2state : PerpsState :=
  { positions := fun a => if a = 0 then ⟨true, true, 10, 1000, 200, 0⟩ else emptyPosition,
    balance := 1000000,
    maintenanceMarginRatioBps := 625, liquidationFeeBps := 50, takerFeeBps := 10 }

/-- State for C3: same shape of underwater long, separate copy. -/
def c3state : PerpsState :=
  { positions := fun a => if a = 0 then ⟨true, true, 20, 500, 300, 0⟩ else emptyPosition,
    balance := 1000000,
    maintenanceMarginRatioBps := 625, liquidationFeeBps := 50, takerFeeBps := 10 }

/-- State for the C4 witness: account 0 already holds an open position. -/
def c4state : PerpsState :=
  { positions := fun a => if a = 0 then ⟨true, true, 10, 1000, 100, 0⟩ else emptyPosition,
    balance := 5000,
    maintenanceMarginRatioBps := 625, liquidationFeeBps := 50, takerFeeBps := 10 }

/-- State for the C5 witness: leverage 100 at entry price, so equity equals
margin (pnl = 0) yet is below maintenance, making the account liquidatable
without any loss (the only liquidation path the buggy `_calcPnl` allows). -/
def c5state : PerpsState :=
  { positions := fun a => if a = 0 then ⟨true, true, 100, 1000, 100, 0⟩ else emptyPosition,
    balance := 10000,
    maintenanceMarginRatioBps := 625, liquidationFeeBps := 50, takerFeeBps := 10 }

/-- Fresh state for the C6 witness: no position yet. -/
def c6state : PerpsState :=
  { positions := fun _ => emptyPosition,
    balance := 0,
    maintenanceMarginRatioBps := 625, liquidationFeeBps := 50, takerFeeBps := 10 }

/-- The state produced by the C6 witness open (margin `10^6` wei, leverage
10, fee `10^7 * 10 / 10000 = 10^4`). -/
def c6result : PerpsState :=
  { positions := fun a => if a = 0 then ⟨true, true, 10, 990000, 50, 7⟩
                          else c6state.positions a,
    balance := c6state.balance + 1000000,
    maintenanceMarginRatioBps := 625, liquidationFeeBps := 50, takerFeeBps := 10 }

/-! ## Helper lemmas for the checked-arithmetic wrappers -/

theorem cmul_eq_some {a b c : Nat} (h : cmul a b = some c) : c = a * b := by
  unfold cmul at h
  split_ifs at h
  exact (Option.some.inj h).symm

theorem csub_eq_some {a b c : Nat} (h : csub a b = some c) : b ≤ a ∧ c = a - b := by
  unfold csub at h
  split_ifs at h with hb
  exact ⟨hb, (Option.some.inj h).symm⟩

theorem ichk_eq_some {z w : Int} (h : ichk z = some w) : w = z := by
  unfold ichk at h
  split_ifs at h
  exact (Option.some.inj h).symm

/-! ## C1 -/

/-- C1: the claim states `_calcPnl` computes the signed linear PnL
`notional * (exitPrice - entryPrice) / entryPrice` for longs.  It does not:
the subtraction is *unsigned* checked `uint256` arithmetic, so for any
losing long (`price < entryPrice`) the call reverts (`none`) instead of
returning the negative PnL `-5000` that the formula (and the contract's own
doc comment) prescribes at this input. -/
theorem c1_calcPnl_reverts_on_losing_long :
    calcPnl ⟨true, true, 10, 1000, 200, 0⟩ 100 = none := by decide

/-! ## C2 -/

/-- C2: the claim states `closePosition` never rejects on negative equity
and pays `max(0, margin + pnl - closeFee)`.  In fact closing any losing
position reverts inside `_calcPnl` (checked `uint256` underflow) before the
zero-floored settlement is ever computed: here the underwater long of
`c2state` cannot be closed at price 100. -/
theorem c2_close_reverts_underwater :
    closePosition c2state 0 100 5 = none := by rfl

/-! ## C3 -/

/-- C3: the claim states `canLiquidate(a) = true ⇔ equity(a) ≤ maintenance(a)`.
At `c3state` (margin 500, leverage 20, entry 300, price 100) equity would be
`500 - 6666 < 0 ≤ maintenance = 625`, so the claim requires `true`; the view
call instead reverts (`none`) in `_calcPnl`'s unsigned subtraction. -/
theorem c3_canLiquidate_reverts_underwater :
    canLiquidate c3state 0 100 = none := by rfl

/-! ## C4 -/

/-- C4: opening while a position is already open is rejected (`none`
models the revert, so no state is changed); together with the fact that
the ledger stores exactly one `Position` record per account this gives the
at-most-one-open-position invariant. -/
theorem c4_open_while_open_rejected (st : PerpsState) (sender : Nat)
    (isLong : Bool) (leverage v price now : Nat)
    (h : (st.positions sender).isOpen = true) :
    openPosition st sender isLong leverage v price now = none := by
  unfold openPosition
  split_ifs <;> rfl

theorem c4_witness :
    (c4state.positions 0).isOpen = true ∧
    openPosition c4state 0 false 5 500 100 1 = none :=
  ⟨rfl, c4_open_while_open_rejected c4state 0 false 5 500 100 1 rfl⟩

/-! ## C6 -/

/-- C6: every successful open records
`margin = marginDeposit - marginDeposit * leverage * takerFeeBps / 10000`
in exact truncating integer arithmetic. -/
theorem c6_open_margin_fee_exact (st : PerpsState) (sender : Nat)
    (isLong : Bool) (leverage v price now : Nat) (st2 : PerpsState)
    (h : openPosition st sender isLong leverage v price now = some st2) :
    (st2.positions sender).margin = v - v * leverage * st.takerFeeBps / 10000 := by
  unfold openPosition at h
  split_ifs at h
  rcases h1 : cmul v leverage with _ | notional <;> rw [h1] at h <;> dsimp only at h
  · cases h
  rcases h2 : cmul notional st.takerFeeBps with _ | nf <;> rw [h2] at h <;> dsimp only at h
  · cases h
  split_ifs at h
  rcases h3 : csub v (nf / 10000) with _ | m <;> rw [h3] at h <;> dsimp only at h
  · cases h
  obtain rfl := Option.some.inj h
  have e1 := cmul_eq_some h1
  have e2 := cmul_eq_some h2
  have e3 := (csub_eq_some h3).2
  subst e1
  subst e2
  simp [e3]

theorem c6_witness :
    (c6result.positions 0).margin = 1000000 - 1000000 * 10 * c6state.takerFeeBps / 10000 :=
  c6_open_margin_fee_exact c6state 0 true 10 1000000 50 7 c6result (by rfl)

/-! ## C8 -/

/-- C8: aggregator idempotency.  When the fetched score equals the
per-fixture cursor, the deltas are zero, the index is returned unchanged,
the cursor is untouched and nothing is published.  (Per the source, the
delta applied in the other branch is only the *positive* difference
`max(0, cur - prev)` per side, i.e. truncated subtraction.) -/
theorem c8_football_idempotent (cur : Score) (idx : ℚ) :
    footballStep (some cur) cur idx = (idx, some cur, false) := by
  unfold footballStep
  simp

/-! ## C9 -/

/-- C9: one keeper iteration issues at most `cap = MAX_TX_PER_LOOP`
mutating operations, and the tracked open-set is returned unchanged, so
eligible-but-unacted accounts carry over to the next iteration. -/
theorem c9_keeper_cap (openSet : List Nat) (cap : Nat)
    (canLiq shouldCl : Nat → Bool) :
    (keeperIteration openSet cap canLiq shouldCl).2.length ≤ cap ∧
    (keeperIteration openSet cap canLiq shouldCl).1 = openSet := by
  constructor
  · have h : ∀ (l : List Nat) (sent : Nat),
        (actLoop canLiq shouldCl cap l sent).length ≤ cap - sent := by
      intro l
      induction l with
      | nil => intro sent; simp [actLoop]
      | cons t rest ih =>
        intro sent
        unfold actLoop
        split_ifs with h1 h2 h3
        · simp
        · have := ih (sent + 1); simp only [List.length_cons]; omega
        · have := ih (sent + 1); simp only [List.length_cons]; omega
        · have := ih sent; omega
    simpa using h openSet 0
  · rfl

end BTCD

namespace BTCD

/-! ## C5 -/

/-- C5: whenever `canLiquidate` holds (i.e. the view call returns `true`
rather than reverting), `liquidate` succeeds, closes the position, pays the
caller exactly `min(max(equity, 0), notional * liquidationFeeBps / 10000)`,
and the contract keeps the rest: only the reward leaves the contract
balance and the liquidated trader is paid nothing.  The hypotheses beyond
`canLiquidate = some true` only name the intermediate values of its
pipeline and bound the fee product below `2^256` (the spec's "intermediate
products must not overflow") and the reward by the contract balance. -/
theorem c5_liquidate_reward (st : PerpsState) (trader price : Nat)
    (pnl equity : Int) (notional : Nat)
    (hopen : (st.positions trader).isOpen = true)
    (hpnl : calcPnl (st.positions trader) price = some (pnl, notional))
    (hich : ichk (toInt256 (st.positions trader).margin + pnl) = some equity)
    (hliq : canLiquidate st trader price = some true)
    (hnl : notional * st.liquidationFeeBps < U256)
    (hbal : notional * st.liquidationFeeBps / 10000 ≤ st.balance) :
    ∃ st2 reward,
      liquidate st trader price = some (st2, reward) ∧
      (reward : Int) =
        min (max equity 0) ((notional * st.liquidationFeeBps / 10000 : Nat) : Int) ∧
      (st2.positions trader).isOpen = false ∧
      st2.balance = st.balance - reward ∧
      ∀ a, a ≠ trader → st2.positions a = st.positions a := by
  have hcm : cmul notional st.liquidationFeeBps = some (notional * st.liquidationFeeBps) := by
    unfold cmul
    rw [if_pos hnl]
  simp only [liquidate, hopen, hliq, hpnl, hich, hcm, not_true, if_false]
  split_ifs with h1 h2 h3 h4 h5
  · exact absurd h2.1 (lt_irrefl 0)
  · refine ⟨_, _, rfl, ?_, by simp, rfl, fun a ha => by simp [ha]⟩
    omega
  · exact absurd h4.2 (not_lt.mpr hbal)
  · refine ⟨_, _, rfl, ?_, by simp, rfl, fun a ha => by simp [ha]⟩
    omega
  · exact absurd h5.2 (not_lt.mpr (le_trans (not_lt.mp h3) hbal))
  · refine ⟨_, _, rfl, ?_, by simp, rfl, fun a ha => by simp [ha]⟩
    omega

theorem c5_witness :
    ∃ st2 reward,
      liquidate c5state 0 100 = some (st2, reward) ∧
      (reward : Int) =
        min (max (1000 : Int) 0) ((100000 * c5state.liquidationFeeBps / 10000 : Nat) : Int) ∧
      (st2.positions 0).isOpen = false ∧
      st2.balance = c5state.balance - reward ∧
      ∀ a, a ≠ 0 → st2.positions a = c5state.positions a :=
  c5_liquidate_reward c5state 0 100 0 1000 100000 (by rfl) (by rfl) (by rfl)
    (by rfl) (by decide) (by decide)

end BTCD

namespace BTCD

/-! ## Candle lemmas -/

/-- Spec well-formedness of one candle: `low ≤ open,close ≤ high`. -/
def wellFormed (c : Candle) : Prop :=
  c.low ≤ c.«open» ∧ c.«open» ≤ c.high ∧ c.low ≤ c.close ∧ c.close ≤ c.high

theorem eps_pos : 0 < eps := by norm_num [eps]

theorem normStep_close (p : ℚ) (c : Candle) : (normStep p c).close = c.close := by
  unfold normStep
  split <;> rfl

theorem normStep_time (p : ℚ) (c : Candle) : (normStep p c).time = c.time := by
  unfold normStep
  split <;> rfl

/-- The normalized open is always within `eps` of the target previous
close: either it was forced to equal it, or it already was that close. -/
theorem normStep_gap (p : ℚ) (c : Candle) : |(normStep p c).«open» - p| ≤ eps := by
  unfold normStep
  split_ifs with h
  · simp only [sub_self, abs_zero]
    exact le_of_lt eps_pos
  · exact le_of_not_lt h

/-- `normStep` only modifies a candle whose raw open differs from the
target previous close. -/
theorem normStep_changed {p : ℚ} {c : Candle} (h : normStep p c ≠ c) :
    c.«open» ≠ p := by
  intro hop
  apply h
  unfold normStep
  rw [if_neg]
  rw [hop, sub_self, abs_zero]
  exact not_lt.mpr (le_of_lt eps_pos)

theorem normStep_wf {c : Candle} (p : ℚ) (h : wellFormed c) :
    wellFormed (normStep p c) := by
  obtain ⟨h1, h2, h3, h4⟩ := h
  unfold normStep wellFormed
  split_ifs
  · exact ⟨min_le_right _ _, le_max_right _ _,
      le_trans (min_le_left _ _) h3, le_trans h4 (le_max_left _ _)⟩
  · exact ⟨h1, h2, h3, h4⟩

theorem normFrom_length (p : ℚ) (l : List Candle) :
    (normFrom p l).length = l.length := by
  induction l generalizing p with
  | nil => rfl
  | cons c rest ih => simp [normFrom, ih]

theorem normFrom_map_close (p : ℚ) (l : List Candle) :
    (normFrom p l).map Candle.close = l.map Candle.close := by
  induction l generalizing p with
  | nil => rfl
  | cons c rest ih => simp [normFrom, normStep_close, ih]

theorem normFrom_map_time (p : ℚ) (l : List Candle) :
    (normFrom p l).map Candle.time = l.map Candle.time := by
  induction l generalizing p with
  | nil => rfl
  | cons c rest ih => simp [normFrom, normStep_time, ih]

theorem normFrom_wf (l : List Candle) (p : ℚ) (h : ∀ c ∈ l, wellFormed c) :
    ∀ c ∈ normFrom p l, wellFormed c := by
  induction l generalizing p with
  | nil => simp [normFrom]
  | cons x rest ih =>
    intro c hc
    simp only [normFrom, List.mem_cons] at hc
    rcases hc with rfl | hc
    · exact normStep_wf p (h x (by simp))
    · exact ih (normStep p x).close (fun d hd => h d (by simp [hd])) c hc

/-- Adjacent candles in the output of the normalization loop are within
`eps` of continuity. -/
theorem normFrom_adjacent (l : List Candle) (p : ℚ) (i : Nat) (c c2 : Candle)
    (h1 : (normFrom p l).get? i = some c)
    (h2 : (normFrom p l).get? (i + 1) = some c2) :
    |c2.«open» - c.close| ≤ eps := by
  induction l generalizing p i with
  | nil => simp [normFrom] at h1
  | cons x rest ih =>
    cases i with
    | zero =>
      simp only [normFrom, List.get?_cons_zero, Option.some.injEq] at h1
      subst h1
      cases rest with
      | nil => simp [normFrom] at h2
      | cons y rest2 =>
        simp only [normFrom, List.get?_cons_succ, List.get?_cons_zero,
          Option.some.injEq] at h2
        subst h2
        exact normStep_gap _ _
    | succ j =>
      simp only [normFrom, List.get?_cons_succ] at h1 h2
      exact ih (normStep p x).close j h1 h2

theorem normalizeContinuity_adjacent (l : List Candle) (i : Nat) (c c2 : Candle)
    (h1 : (normalizeContinuity l).get? i = some c)
    (h2 : (normalizeContinuity l).get? (i + 1) = some c2) :
    |c2.«open» - c.close| ≤ eps := by
  cases l with
  | nil => simp [normalizeContinuity] at h1
  | cons x rest =>
    cases i with
    | zero =>
      simp only [normalizeContinuity, List.get?_cons_zero, Option.some.injEq] at h1
      subst h1
      cases rest with
      | nil => simp [normalizeContinuity, normFrom] at h2
      | cons y rest2 =>
        simp only [normalizeContinuity, normFrom, List.get?_cons_succ,
          List.get?_cons_zero, Option.some.injEq] at h2
        subst h2
        exact normStep_gap _ _
    | succ j =>
      simp only [normalizeContinuity, List.get?_cons_succ] at h1 h2
      exact normFrom_adjacent rest x.close j c c2 h1 h2

theorem normalizeContinuity_wf (l : List Candle) (h : ∀ c ∈ l, wellFormed c) :
    ∀ c ∈ normalizeContinuity l, wellFormed c := by
  cases l with
  | nil => simp [normalizeContinuity]
  | cons x rest =>
    intro c hc
    simp only [normalizeContinuity, List.mem_cons] at hc
    rcases hc with rfl | hc
    · exact h c (by simp)
    · exact normFrom_wf rest x.close (fun d hd => h d (by simp [hd])) c hc

theorem updateBucket_wf (m : List (Nat × Candle)) (b : Nat) (v : ℚ)
    (h : ∀ kc ∈ m, wellFormed kc.2) :
    ∀ kc ∈ updateBucket m b v, wellFormed kc.2 := by
  induction m with
  | nil =>
    intro kc hkc
    simp only [updateBucket, List.mem_singleton] at hkc
    subst hkc
    exact ⟨le_refl _, le_refl _, le_refl _, le_refl _⟩
  | cons x rest ih =>
    intro kc hkc
    obtain ⟨k, c⟩ := x
    simp only [updateBucket] at hkc
    split_ifs at hkc with hk
    · rcases List.mem_cons.mp hkc with rfl | hkc
      · obtain ⟨h1, h2, h3, h4⟩ := h (k, c) (by simp)
        exact ⟨le_trans (min_le_left _ _) h1, le_trans h2 (le_max_left _ _),
          min_le_right _ _, le_max_right _ _⟩
      · exact h _ (by simp [hkc])
    · rcases List.mem_cons.mp hkc with rfl | hkc
      · exact h _ (by simp)
      · exact ih (fun kc hkc => h kc (by simp [hkc])) kc hkc

theorem foldl_updateBucket_wf (b : Nat) (pts : List Point) :
    ∀ (m : List (Nat × Candle)), (∀ kc ∈ m, wellFormed kc.2) →
    ∀ kc ∈ pts.foldl (fun m p => updateBucket m (p.time / b * b) p.value) m,
      wellFormed kc.2 := by
  induction pts with
  | nil => intro m h; simpa using h
  | cons p rest ih =>
    intro m h
    simp only [List.foldl_cons]
    exact ih _ (updateBucket_wf m _ _ h)

theorem insertByKey_mem (x kc : Nat × Candle) (l : List (Nat × Candle)) :
    kc ∈ insertByKey x l ↔ kc = x ∨ kc ∈ l := by
  induction l with
  | nil => simp [insertByKey]
  | cons y rest ih =>
    simp only [insertByKey]
    split_ifs
    · simp [List.mem_cons]
    · simp only [List.mem_cons, ih]
      tauto

theorem sortByKey_mem (l : List (Nat × Candle)) (kc : Nat × Candle) :
    kc ∈ sortByKey l ↔ kc ∈ l := by
  induction l with
  | nil => simp [sortByKey]
  | cons x rest ih =>
    rw [show sortByKey (x :: rest) = insertByKey x (sortByKey rest) from rfl,
      insertByKey_mem]
    simp [ih, List.mem_cons]

/-- Every candle produced by `aggregate` satisfies `low ≤ open,close ≤ high`. -/
theorem aggregate_wf (pts : List Point) (b : Nat) :
    ∀ c ∈ aggregate pts b, wellFormed c := by
  intro c hc
  unfold aggregate at hc
  split_ifs at hc
  · simp at hc
  · obtain ⟨kc, hkc, rfl⟩ := List.mem_map.mp hc
    exact foldl_updateBucket_wf b pts [] (by simp) kc ((sortByKey_mem _ _).mp hkc)

end BTCD

namespace BTCD

/-! ## C7 -/

/-- Counterexample ticks for C7: the two bucket values differ by `2^-40`
(exactly representable in an IEEE double, and with an exactly computed
difference), which is below the `1e-9` tolerance, so normalization leaves
the second candle's open untouched. -/
def c7ticks : List Point := [⟨0, 1⟩, ⟨60, 1 + 1 / 2 ^ 40⟩]

/-- Ticks for the C7 witness: a gap of 1 between buckets, far above the
tolerance, so the second open is forced onto the first close. -/
def c7wticks : List Point := [⟨0, 1⟩, ⟨60, 2⟩]

/-- C7 (counterexample): the claim asserts exact continuity
`candle[i+1].open == candle[i].close` after aggregation and normalization.
It fails: `normalizeContinuity` only forces the open when it differs from
the previous close by more than `1e-9`, so on `c7ticks` the second candle
opens at `1 + 2^-40 ≠ 1`. -/
theorem c7_continuity_counterexample :
    ((normalizeContinuity (aggregate c7ticks 60)).get? 1).map Candle.«open» ≠
    ((normalizeContinuity (aggregate c7ticks 60)).get? 0).map Candle.close := by
  have hagg : aggregate c7ticks 60 =
      [⟨0, 1, 1, 1, 1⟩,
        ⟨60, 1 + 1 / 2 ^ 40, 1 + 1 / 2 ^ 40, 1 + 1 / 2 ^ 40, 1 + 1 / 2 ^ 40⟩] := by
    simp [aggregate, c7ticks, updateBucket, sortByKey, insertByKey]
  have hnorm : normalizeContinuity
      [(⟨0, 1, 1, 1, 1⟩ : Candle),
        ⟨60, 1 + 1 / 2 ^ 40, 1 + 1 / 2 ^ 40, 1 + 1 / 2 ^ 40, 1 + 1 / 2 ^ 40⟩] =
      [⟨0, 1, 1, 1, 1⟩,
        ⟨60, 1 + 1 / 2 ^ 40, 1 + 1 / 2 ^ 40, 1 + 1 / 2 ^ 40, 1 + 1 / 2 ^ 40⟩] := by
    simp only [normalizeContinuity, normFrom, normStep, eps]
    rw [if_neg]
    rw [not_lt, show (1 : ℚ) + 1 / 2 ^ 40 - 1 = 1 / 2 ^ 40 by ring,
      abs_of_pos (by norm_num)]
    norm_num
  rw [hagg, hnorm]
  simp only [List.get?_cons_succ, List.get?_cons_zero, Option.map_some]
  intro h
  have := Option.some.inj h
  norm_num at this

/-- C7 (amended): after aggregation (positive bucket width) and continuity
normalization, chronologically adjacent candles satisfy
`|candle[i+1].open - candle[i].close| ≤ 1e-9` (exact equality whenever the
raw gap exceeded the tolerance, since then the open is forced), and every
candle satisfies `low ≤ open ≤ high` and `low ≤ close ≤ high`. -/
theorem c7_amended_continuity (pts : List Point) (b : Nat) (hb : 0 < b) :
    (∀ i c c2, (normalizeContinuity (aggregate pts b)).get? i = some c →
        (normalizeContinuity (aggregate pts b)).get? (i + 1) = some c2 →
        |c2.«open» - c.close| ≤ eps) ∧
    (∀ c ∈ normalizeContinuity (aggregate pts b), wellFormed c) := by
  refine ⟨fun i c c2 h1 h2 => normalizeContinuity_adjacent _ i c c2 h1 h2, ?_⟩
  exact normalizeContinuity_wf _ (aggregate_wf pts b)

theorem c7_amended_witness :
    |((⟨60, 1, 2, 1, 2⟩ : Candle)).«open» - ((⟨0, 1, 1, 1, 1⟩ : Candle)).close| ≤ eps ∧
    wellFormed (⟨60, 1, 2, 1, 2⟩ : Candle) := by
  have heval : normalizeContinuity (aggregate c7wticks 60) =
      [⟨0, 1, 1, 1, 1⟩, ⟨60, 1, 2, 1, 2⟩] := by
    have hagg : aggregate c7wticks 60 = [⟨0, 1, 1, 1, 1⟩, ⟨60, 2, 2, 2, 2⟩] := by
      simp [aggregate, c7wticks, updateBucket, sortByKey, insertByKey]
    rw [hagg]
    simp only [normalizeContinuity, normFrom, normStep, eps]
    rw [if_pos (by norm_num)]
    norm_num
  exact ⟨(c7_amended_continuity c7wticks 60 (by norm_num)).1 0 ⟨0, 1, 1, 1, 1⟩
      ⟨60, 1, 2, 1, 2⟩ (by rw [heval]; rfl) (by rw [heval]; rfl),
    (c7_amended_continuity c7wticks 60 (by norm_num)).2 ⟨60, 1, 2, 1, 2⟩
      (by rw [heval]; simp)⟩

/-! ## C10 -/

theorem normFrom_change_zero (l : List Candle) (p : ℚ) (c d : Candle)
    (h1 : l.get? 0 = some c) (h2 : (normFrom p l).get? 0 = some d)
    (hne : d ≠ c) : c.«open» ≠ p := by
  cases l with
  | nil => simp at h1
  | cons y rest =>
    simp only [List.get?_cons_zero, Option.some.injEq] at h1
    subst h1
    simp only [normFrom, List.get?_cons_zero, Option.some.injEq] at h2
    subst h2
    exact normStep_changed hne

theorem normFrom_change_succ (l : List Candle) (p : ℚ) (i : Nat)
    (ci c d : Candle) (h1 : l.get? i = some ci) (h2 : l.get? (i + 1) = some c)
    (h3 : (normFrom p l).get? (i + 1) = some d) (hne : d ≠ c) :
    c.«open» ≠ ci.close := by
  induction l generalizing p i with
  | nil => simp at h1
  | cons x rest ih =>
    cases i with
    | zero =>
      simp only [List.get?_cons_zero, Option.some.injEq] at h1
      subst h1
      simp only [List.get?_cons_succ] at h2
      simp only [normFrom, List.get?_cons_succ] at h3
      have := normFrom_change_zero rest (normStep p x).close c d h2 h3 hne
      rwa [normStep_close] at this
    | succ j =>
      simp only [List.get?_cons_succ] at h1 h2
      simp only [normFrom, List.get?_cons_succ] at h3
      exact ih (normStep p x).close j h1 h2 h3

/-- C10: continuity normalization preserves the candle count, every bucket
timestamp and every close, leaves the first candle unchanged, and a later
candle differs from its raw input only when that candle's raw open differs
from the previous candle's close (only `open`/`high`/`low` can change,
since `time` and `close` are preserved pointwise). -/
theorem c10_normalize_frame (cs : List Candle) :
    (normalizeContinuity cs).length = cs.length ∧
    (normalizeContinuity cs).map Candle.time = cs.map Candle.time ∧
    (normalizeContinuity cs).map Candle.close = cs.map Candle.close ∧
    (normalizeContinuity cs).head? = cs.head? ∧
    (∀ i ci c d, cs.get? i = some ci → cs.get? (i + 1) = some c →
        (normalizeContinuity cs).get? (i + 1) = some d → d ≠ c →
        c.«open» ≠ ci.close) := by
  cases cs with
  | nil =>
    refine ⟨rfl, rfl, rfl, rfl, ?_⟩
    intro i ci c d h1
    simp at h1
  | cons x rest =>
    refine ⟨?_, ?_, ?_, ?_, ?_⟩
    · simp [normalizeContinuity, normFrom_length]
    · simp [normalizeContinuity, normFrom_map_time]
    · simp [normalizeContinuity, normFrom_map_close]
    · simp [normalizeContinuity]
    · intro i ci c d h1 h2 h3 hne
      cases i with
      | zero =>
        simp only [List.get?_cons_zero, Option.some.injEq] at h1
        subst h1
        simp only [List.get?_cons_succ] at h2
        simp only [normalizeContinuity, List.get?_cons_succ] at h3
        exact normFrom_change_zero rest x.close c d h2 h3 hne
      | succ j =>
        simp only [List.get?_cons_succ] at h1 h2
        simp only [normalizeContinuity, List.get?_cons_succ] at h3
        exact normFrom_change_succ rest x.close j ci c d h1 h2 h3 hne

/-- Concrete input for the C10 witness (raw gap 4, so the second candle is
rewritten by normalization). -/
def c10cs : List Candle := [⟨0, 1, 1, 1, 1⟩, ⟨60, 5, 5, 5, 5⟩]

theorem c10_witness :
    (normalizeContinuity c10cs).length = c10cs.length ∧
    (normalizeContinuity c10cs).map Candle.time = c10cs.map Candle.time ∧
    (normalizeContinuity c10cs).map Candle.close = c10cs.map Candle.close ∧
    (normalizeContinuity c10cs).head? = c10cs.head? ∧
    ((⟨60, 5, 5, 5, 5⟩ : Candle)).«open» ≠ ((⟨0, 1, 1, 1, 1⟩ : Candle)).close := by
  have heval : normalizeContinuity c10cs = [⟨0, 1, 1, 1, 1⟩, ⟨60, 1, 5, 1, 5⟩] := by
    simp only [c10cs, normalizeContinuity, normFrom, normStep, eps]
    rw [if_pos (by norm_num)]
    norm_num
  have h := c10_normalize_frame c10cs
  exact ⟨h.1, h.2.1, h.2.2.1, h.2.2.2.1,
    h.2.2.2.2 0 ⟨0, 1, 1, 1, 1⟩ ⟨60, 5, 5, 5, 5⟩ ⟨60, 1, 5, 1, 5⟩ rfl rfl
      (by rw [heval]; rfl) (by simp only [ne_eq, Candle.mk.injEq]; norm_num)⟩

end BTCD
